import Mathlib

/-!
Shallow embedding of the `lsblk` crate (FyraLabs/lsblk-rs).

Paths are modelled as `String`s.  The filesystem view that one call of
`BlockDevice::list` / `BlockDevice::from_path` observes is frozen into an
`FsView`: for each of the seven `/dev/disk/by-*` directories the outcome of
scanning it (absent, unreadable, or a list of symlink entries, each entry
either resolving to a canonical target or broken), plus the behaviour of
`std::fs::canonicalize` on arbitrary input paths.

Fallible Rust code returning `Result<_, LsblkError>` is modelled with `LRes`;
the extra `panicked` constructor models the `expect`/slice panics of the
source, which are distinct from returning an `Err`.
-/

/-- The attribute slots of the six non-identity `/dev/disk/by-*` passes of
`BlockDevice::list` (`by-diskseq` is the identity-defining seventh directory
and is treated separately, as in the source). -/
inductive Slot
  | path
  | uuid
  | partuuid
  | label
  | partlabel
  | id
deriving DecidableEq

/-- The order in which `BlockDevice::list` runs the six non-identity passes
(source order of the `insert!` invocations in `blockdevs.rs`). -/
def sixSlots : List Slot := [.path, .uuid, .partuuid, .label, .partlabel, .id]

/-- Struct `BlockDevice` from `blockdevs.rs` (field for field). -/
structure BlockDevice where
  name : String
  fullname : String
  diskseq : Option String
  path : Option String
  uuid : Option String
  partuuid : Option String
  label : Option String
  partlabel : Option String
  id : Option String
deriving DecidableEq

/-- Rust `BlockDevice::default()`: `String`/`PathBuf` default to empty, options to `None`. -/
def defaultBD : BlockDevice :=
  { name := "", fullname := "", diskseq := none, path := none, uuid := none,
    partuuid := none, label := none, partlabel := none, id := none }

/-- A fresh record as built by the `insert!` macro before its one attribute is
set: `Self { name, fullname, ..Self::default() }`. -/
def freshBD (n d : String) : BlockDevice :=
  { name := n, fullname := d, diskseq := none, path := none, uuid := none,
    partuuid := none, label := none, partlabel := none, id := none }

/-- Write one attribute slot of a record (`bd.$kind = Some(blk)`). -/
def setField (k : Slot) (bd : BlockDevice) (s : String) : BlockDevice :=
  match k with
  | .path => { bd with path := some s }
  | .uuid => { bd with uuid := some s }
  | .partuuid => { bd with partuuid := some s }
  | .label => { bd with label := some s }
  | .partlabel => { bd with partlabel := some s }
  | .id => { bd with id := some s }

/-- Read one attribute slot of a record. -/
def getField (k : Slot) (bd : BlockDevice) : Option String :=
  match k with
  | .path => bd.path
  | .uuid => bd.uuid
  | .partuuid => bd.partuuid
  | .label => bd.label
  | .partlabel => bd.partlabel
  | .id => bd.id

/-- Enum `LsblkError` from `lib.rs` (the `std::io::Error` cause is dropped;
only the variant and the path payload are kept). -/
inductive LsblkErr
  | readDir (p : String)
  | badSymlink (p : String)
  | readFile (p : String)
deriving DecidableEq

/-- Outcome of a fallible Rust computation: `Ok`, `Err(LsblkError)`, or a
panic (`expect` / out-of-bounds slicing). -/
inductive LRes (α : Type)
  | ok (a : α)
  | err (e : LsblkErr)
  | panicked
deriving DecidableEq

/-- One discovered symlink in a `/dev/disk/by-*` directory: either it
canonicalizes to `dest` (the link is named `src`), or canonicalization fails
(`broken p`, where `p` is the link's own path) and the iterator yields
`Err(BadSymlink)` for it. -/
inductive DirEntry
  | broken (p : String)
  | entryOk (dest src : String)
deriving DecidableEq

/-- What scanning one `/dev/disk/by-*` directory observes. -/
inductive DirState
  | absent
  | unreadable (p : String)
  | present (entries : List DirEntry)
deriving DecidableEq

/-- Function `ls_symlinks` (`blockdevs.rs:5`): a missing directory yields an empty
sequence (not an error); a directory that exists but cannot be listed fails
with `ReadDir`; otherwise the per-entry results are handed to the caller. -/
def lsSymlinks : DirState → LRes (List DirEntry)
  | .absent => .ok []
  | .unreadable p => .err (.readDir p)
  | .present l => .ok l

/-- One frozen filesystem view: the seven symlink directories plus the
behaviour of `canonicalize` on caller-supplied paths (`none` = fails). -/
structure FsView where
  ds : DirState
  dirs : Slot → DirState
  canon : String → Option String

/-- The name→record map `BlockDevice::list` builds (Rust `HashMap<String, BlockDevice>`). -/
abbrev DevMap := String → Option BlockDevice

/-- Point update of the map (`HashMap::insert` / writing through `get_mut`). -/
def mupd (m : DevMap) (key : String) (v : BlockDevice) : DevMap :=
  fun s => if s = key then some v else m s

/-- Rust `fullname.strip_prefix("/dev/")`: `some` of the remainder when the path
starts with `/dev/`, `none` otherwise (in the source, `none` is an `expect`
panic site). -/
def stripDev (s : String) : Option String :=
  match s.data with
  | '/' :: 'd' :: 'e' :: 'v' :: '/' :: rest => some (String.mk rest)
  | _ => none

/-- The path `/dev/<name>`. -/
def devPath (n : String) : String :=
  String.mk ('/' :: 'd' :: 'e' :: 'v' :: '/' :: n.data)

/-- One step of the identity-defining `by-diskseq` loop of `list`
(`blockdevs.rs:82-98`): unconditional `insert` of a fresh record with only
`diskseq` set. -/
def dsEntry (m : DevMap) : DirEntry → LRes DevMap
  | .broken p => .err (.badSymlink p)
  | .entryOk d s =>
    match stripDev d with
    | none => .panicked
    | some n => .ok (mupd m n { freshBD n d with diskseq := some s })

/-- The whole `by-diskseq` loop of `list`. -/
def dsPass : List DirEntry → DevMap → LRes DevMap
  | [], m => .ok m
  | e :: es, m =>
    match dsEntry m e with
    | .ok m' => dsPass es m'
    | .err e' => .err e'
    | .panicked => .panicked

/-- One step of an `insert!` pass of `list` (`blockdevs.rs:57-81`): update the
slot of an existing record, or insert a fresh record carrying only this slot. -/
def passEntry (k : Slot) (m : DevMap) : DirEntry → LRes DevMap
  | .broken p => .err (.badSymlink p)
  | .entryOk d s =>
    match stripDev d with
    | none => .panicked
    | some n =>
      match m n with
      | some bd => .ok (mupd m n (setField k bd s))
      | none => .ok (mupd m n (setField k (freshBD n d) s))

/-- A whole `insert!` pass over one directory's entries. -/
def slotPass (k : Slot) : List DirEntry → DevMap → LRes DevMap
  | [], m => .ok m
  | e :: es, m =>
    match passEntry k m e with
    | .ok m' => slotPass k es m'
    | .err e' => .err e'
    | .panicked => .panicked

/-- The six non-identity passes of `list`, in the order given by `o`
(the source runs them in the order `sixSlots`). -/
def runPasses (v : FsView) : List Slot → DevMap → LRes DevMap
  | [], m => .ok m
  | k :: ks, m =>
    match lsSymlinks (v.dirs k) with
    | .ok l =>
      match slotPass k l m with
      | .ok m' => runPasses v ks m'
      | .err e => .err e
      | .panicked => .panicked
    | .err e => .err e
    | .panicked => .panicked

/-- Function `BlockDevice::list` (`blockdevs.rs:55-106`), as the final name→record map
(the source returns `result.into_values()`, whose order is unspecified).
The pass order `o` is a parameter; the source uses `sixSlots`. -/
def listModel (v : FsView) (o : List Slot) : LRes DevMap :=
  match lsSymlinks v.ds with
  | .ok l =>
    match dsPass l (fun _ => none) with
    | .ok m => runPasses v o m
    | .err e => .err e
    | .panicked => .panicked
  | .err e => .err e
  | .panicked => .panicked

/-- The predicate of `from_path`'s `find` call:
`elm.as_ref().is_ok_and(|(fullname, _)| fullname == &pathbuf)`.
A broken entry is simply not a match. -/
def matchDest (cp : String) : DirEntry → Bool
  | .broken _ => false
  | .entryOk d _ => d = cp

/-- The link name of the first entry of `l` that resolves to `cp`
(what `if let Some(Ok((_, blk))) = ...find(...)` binds). -/
def findIn (l : List DirEntry) (cp : String) : Option String :=
  match l.find? (matchDest cp) with
  | some (.entryOk _ s) => some s
  | _ => none

/-- One `insert!` step of `from_path` (`blockdevs.rs:128-137`): scan a
directory for the entry resolving to `cp`; `ReadDir` failures propagate,
broken entries are skipped by the `find` predicate. -/
def findStep (d : DirState) (cp : String) : LRes (Option String) :=
  match lsSymlinks d with
  | .ok l => .ok (findIn l cp)
  | .err e => .err e
  | .panicked => .panicked

/-- Sequencing of `LRes`. -/
def LRes.bind {α β : Type} : LRes α → (α → LRes β) → LRes β
  | .ok a, f => f a
  | .err e, _ => .err e
  | .panicked, _ => .panicked

/-- Function `BlockDevice::from_abs_path_unpopulated` (`blockdevs.rs:173-183`); `none`
models the `expect("Cannot strip /dev")` panic. -/
def fromAbsModel (p : String) : Option BlockDevice :=
  match stripDev p with
  | none => none
  | some n => some (freshBD n p)

/-- Function `BlockDevice::from_path` (`blockdevs.rs:124-146`): canonicalize the input
(`BadSymlink` on failure), derive `name` (panic if not under `/dev/`), then
search all seven directories for the matching canonical target. -/
def fromPathModel (v : FsView) (p : String) : LRes BlockDevice :=
  match v.canon p with
  | none => .err (.badSymlink p)
  | some cp =>
    match stripDev cp with
    | none => .panicked
    | some n =>
      (findStep v.ds cp).bind fun oDs =>
      (findStep (v.dirs .path) cp).bind fun oPath =>
      (findStep (v.dirs .uuid) cp).bind fun oUuid =>
      (findStep (v.dirs .partuuid) cp).bind fun oPu =>
      (findStep (v.dirs .label) cp).bind fun oLa =>
      (findStep (v.dirs .partlabel) cp).bind fun oPl =>
      (findStep (v.dirs .id) cp).bind fun oId =>
      .ok { name := n, fullname := cp, diskseq := oDs, path := oPath,
            uuid := oUuid, partuuid := oPu, label := oLa, partlabel := oPl,
            id := oId }

/-- Struct `Mount` from `mountpoints.rs` (field for field; `PathBuf` as `String`). -/
structure Mount where
  device : String
  mountpoint : String
  fstype : String
  mountopts : String
deriving DecidableEq

/-- Rust `trim_end_matches(" 0 0")` seen from the right end of the line: repeatedly
drop the 4-character suffix `" 0 0"` (the argument list is the reversed line). -/
def trimRev : List Char → List Char
  | '0' :: ' ' :: '0' :: ' ' :: rest => trimRev rest
  | l => l

/-- Rust `l.trim_end_matches(" 0 0")` on the character list of a line. -/
def trimZeros (l : List Char) : List Char :=
  (trimRev l.reverse).reverse

/-- Rust `str::split(' ')` on a character list: every single space separates
two fields; the empty string yields one empty field. -/
def splitSp : List Char → List (List Char)
  | [] => [[]]
  | c :: rest =>
    if c = ' ' then [] :: splitSp rest
    else
      match splitSp rest with
      | [] => [[c]]
      | f :: fs => (c :: f) :: fs

/-- The per-line closure of `Mount::list` (`mountpoints.rs:50-58`): trim the
trailing `" 0 0"`, split on single spaces, take the first four fields in
order; fewer than four fields yields `None` (the line is dropped). -/
def parseMountLine (l : String) : Option Mount :=
  match splitSp (trimZeros l.data) with
  | d :: mp :: f :: o :: _ =>
    some { device := String.mk d, mountpoint := String.mk mp,
           fstype := String.mk f, mountopts := String.mk o }
  | _ => none

/-- Function `Mount::list` restricted to the line contents: `filter_map` of the
per-line parser over the lines of `/proc/mounts`. -/
def mountLines (ls : List String) : List Mount :=
  ls.filterMap parseMountLine

/-- Function `Mount::list` (`mountpoints.rs:42-60`): failing to open `/proc/mounts` is
a `ReadFile` error; otherwise the lines are parsed individually. -/
def mountListModel (file : Option (List String)) : LRes (List Mount) :=
  match file with
  | none => .err (.readFile "/proc/mounts")
  | some ls => .ok (mountLines ls)

/-- UTF-8 encoding of one character, as byte values. -/
def utf8EncodeCharNat (c : Char) : List Nat :=
  let n := c.toNat
  if n < 128 then [n]
  else if n < 2048 then [192 + n / 64, 128 + n % 64]
  else if n < 65536 then [224 + n / 4096, 128 + (n / 64) % 64, 128 + n % 64]
  else [240 + n / 262144, 128 + (n / 4096) % 64, 128 + (n / 64) % 64, 128 + n % 64]

/-- Rust `str::as_bytes`: the UTF-8 bytes of a string. -/
def utf8Bytes (s : String) : List Nat :=
  s.data.flatMap utf8EncodeCharNat

/-- The byte values of `b"mmcblk"`. -/
def mmcblkBytes : List Nat := utf8Bytes "mmcblk"

/-- Function `BlockDevice::is_physical` (`blockdevs.rs:202-206`):
`self.path.is_some() || matches!(self.name.as_bytes().split_at(6).0, b"mmcblk")`.
`||` short-circuits; when it does not, `split_at(6)` panics (`none`) for a
name of fewer than 6 bytes, else the first 6 bytes are compared to
`b"mmcblk"`. -/
def isPhysical (bd : BlockDevice) : Option Bool :=
  if bd.path.isSome then some true
  else
    let bs := utf8Bytes bd.name
    if 6 ≤ bs.length then some (decide (bs.take 6 = mmcblkBytes)) else none

/-- Rust `str::parse::<u64>`: optional leading `+`, then one or more ASCII
digits, value below `2 ^ 64`; anything else fails. -/
def parseU64 (s : String) : Option Nat :=
  let cs := match s.data with
    | '+' :: rest => rest
    | l => l
  if cs ≠ [] ∧ cs.all Char.isDigit then
    let n := cs.foldl (fun a c => a * 10 + (c.toNat - 48)) 0
    if n < 2 ^ 64 then some n else none
  else none

/-- Function `BlockDevice::capacity` (`blockdevs.rs:280-285`) as a function of the
content of `/sys/.../size` (`none` = the read itself failed):
`Ok(s[..s.len() - 1].parse().ok())` — the last byte of the content is dropped
unconditionally (`// remove new line char`), and an empty content makes the
slice index panic. -/
def capacityModel (file : Option String) : LRes (Option Nat) :=
  match file with
  | none => .err (.readFile "size")
  | some s =>
    match s.data with
    | [] => .panicked
    | _ => .ok (parseU64 (String.mk s.data.dropLast))

/-- Second reading of the capacity claim, following the spec's words
("trims exactly one trailing newline from the file content and parses the
remainder"), to be compared with `capacityModel`. -/
def capacitySpecTrimmed (s : String) : Option Nat :=
  if s.data.getLast? = some '\n' then parseU64 (String.mk s.data.dropLast)
  else parseU64 s

/-- The link name an entry contributes for target `d` (`none` when the entry
is broken or resolves elsewhere). -/
def entryMatch (d : String) : DirEntry → Option String
  | .broken _ => none
  | .entryOk d' s => if d' = d then some s else none

/-- The link name of the last entry of `l` resolving to `d` (later entries of
a directory overwrite earlier ones in `list`'s map). -/
def lastSrc : List DirEntry → String → Option String
  | [], _ => none
  | e :: es, d =>
    match lastSrc es d with
    | some s => some s
    | none => entryMatch d e

/-- The entries a directory scan yields (`[]` for an absent directory). -/
def entriesOf : DirState → List DirEntry
  | .present l => l
  | _ => []

/-- An entry `list` can process without aborting: it resolved, and its target
is under `/dev/`. -/
def goodEntry : DirEntry → Bool
  | .broken _ => false
  | .entryOk d _ => (stripDev d).isSome

/-- All entries of a directory are processable. -/
def goodList (l : List DirEntry) : Bool := l.all goodEntry

/-- A directory on which `list`'s pass neither errors nor panics. -/
def dirGood : DirState → Bool
  | .absent => true
  | .unreadable _ => false
  | .present l => goodList l

/-- The pure effect of one `by-diskseq` entry on the map (bad entries, which
would abort, leave it unchanged). -/
def dsStep (m : DevMap) : DirEntry → DevMap
  | .broken _ => m
  | .entryOk d s =>
    match stripDev d with
    | none => m
    | some n => mupd m n { freshBD n d with diskseq := some s }

/-- The pure effect of one `insert!` entry on the map. -/
def passStep (k : Slot) (m : DevMap) : DirEntry → DevMap
  | .broken _ => m
  | .entryOk d s =>
    match stripDev d with
    | none => m
    | some n =>
      mupd m n
        (match m n with
         | some bd => setField k bd s
         | none => setField k (freshBD n d) s)

/-- Build a record from its identity and a slot-valuation. -/
def mkRec (n : String) (dsq : Option String) (f : Slot → Option String) : BlockDevice :=
  { name := n, fullname := devPath n, diskseq := dsq, path := f .path,
    uuid := f .uuid, partuuid := f .partuuid, label := f .label,
    partlabel := f .partlabel, id := f .id }

/-- Value of slot `k` for device `n` after the passes in `ks` have run. -/
def stageField (v : FsView) (ks : List Slot) (k : Slot) (n : String) : Option String :=
  if k ∈ ks then lastSrc (entriesOf (v.dirs k)) (devPath n) else none

/-- Whether device `n` has been discovered after the passes in `ks`. -/
def stagePresent (v : FsView) (ks : List Slot) (n : String) : Bool :=
  (lastSrc (entriesOf v.ds) (devPath n)).isSome
    || ks.any fun k => (lastSrc (entriesOf (v.dirs k)) (devPath n)).isSome

/-- The name→record map after the `by-diskseq` pass and the passes in `ks`. -/
def stageMap (v : FsView) (ks : List Slot) : DevMap := fun n =>
  if stagePresent v ks n then
    some (mkRec n (lastSrc (entriesOf v.ds) (devPath n)) (fun k => stageField v ks k n))
  else none

/-- The canonical targets of a directory's resolving entries. -/
def destsOf (l : List DirEntry) : List String :=
  l.filterMap fun e =>
    match e with
    | .broken _ => none
    | .entryOk d _ => some d

/-- No two entries of the directory resolve to the same canonical target. -/
abbrev nodupDir (d : DirState) : Prop := (destsOf (entriesOf d)).Nodup

/-- No directory of the view contains two entries with the same target. -/
abbrev nodupView (v : FsView) : Prop :=
  nodupDir v.ds ∧ nodupDir (v.dirs .path) ∧ nodupDir (v.dirs .uuid) ∧
    nodupDir (v.dirs .partuuid) ∧ nodupDir (v.dirs .label) ∧
    nodupDir (v.dirs .partlabel) ∧ nodupDir (v.dirs .id)

/-- Is the entry a resolving one? -/
def entryResolves : DirEntry → Bool
  | .broken _ => false
  | .entryOk _ _ => true

/-- Drop the broken entries of one directory. -/
def dropBroken : DirState → DirState
  | .present l => .present (l.filter entryResolves)
  | d => d

/-- The same view with every broken symlink entry deleted. -/
def removeBroken (v : FsView) : FsView :=
  { ds := dropBroken v.ds, dirs := fun k => dropBroken (v.dirs k), canon := v.canon }

/-- Look a name up in the map a successful `list` returned (`none` when the
call failed). -/
def mapAt (x : LRes DevMap) (n : String) : Option BlockDevice :=
  match x with
  | .ok m => m n
  | _ => none

/-- The five characters of the `/dev/` prefix. -/
def devPre : List Char := ['/', 'd', 'e', 'v', '/']

/-- A view in which all seven symlink directories are absent. -/
def vAllAbsent : FsView :=
  { ds := .absent, dirs := fun _ => .absent, canon := fun _ => none }

/-- A small concrete view for the pass-permutation witness. -/
def vC1w : FsView :=
  { ds := .present [.entryOk "/dev/sda" "1"],
    dirs := fun k =>
      match k with
      | .uuid => .present [.entryOk "/dev/sda" "u-1", .entryOk "/dev/sdb" "u-2"]
      | _ => .absent,
    canon := fun _ => none }

/-- The map the source-order listing produces on `vC1w`. -/
def mC1w : DevMap :=
  match listModel vC1w sixSlots with
  | .ok m => m
  | _ => fun _ => none

/-- A view whose `by-id` directory has two links to the same device —
realistic (`ata-…` and `wwn-…` both point at `sda`). -/
def vC2x : FsView :=
  { ds := .present [.entryOk "/dev/sda" "7"],
    dirs := fun k =>
      match k with
      | .id => .present [.entryOk "/dev/sda" "ata-X", .entryOk "/dev/sda" "wwn-Y"]
      | _ => .absent,
    canon := fun p => if p = "/dev/sda" then some p else none }

/-- A duplicate-free view for the resolve-by-path consistency witness. -/
def vC2w : FsView :=
  { ds := .present [.entryOk "/dev/sda" "5"],
    dirs := fun k =>
      match k with
      | .uuid => .present [.entryOk "/dev/sda" "abcd"]
      | _ => .absent,
    canon := fun p => if p = "/dev/sda" then some p else none }

/-- The map the source-order listing produces on `vC2w`. -/
def mC2w : DevMap :=
  match listModel vC2w sixSlots with
  | .ok m => m
  | _ => fun _ => none

/-- The record `list` finds for `sda` on `vC2w`. -/
def rC2w : BlockDevice :=
  { name := "sda", fullname := "/dev/sda", diskseq := some "5", path := none,
    uuid := some "abcd", partuuid := none, label := none, partlabel := none,
    id := none }

/-- A view whose `by-path` directory holds a broken symlink next to a good
one. -/
def vC3x : FsView :=
  { ds := .present [.entryOk "/dev/sda" "3"],
    dirs := fun k =>
      match k with
      | .path => .present [.broken "/dev/disk/by-path/bad", .entryOk "/dev/sda" "pci-1"]
      | _ => .absent,
    canon := fun p => if p = "/dev/sda" then some p else none }

/-- A view whose `by-diskseq` directory holds a symlink resolving outside
`/dev/`. -/
def vC10w : FsView :=
  { ds := .present [.entryOk "/dev/sda" "1", .entryOk "tmp/bad" "2"],
    dirs := fun _ => .absent,
    canon := fun _ => none }

/-- Stripping `/dev/` from `devPath n` gives back `n`. -/
theorem stripDev_devPath (n : String) : stripDev (devPath n) = some n := rfl

/-- A path that strips to `n` is exactly `devPath n`. -/
theorem devPath_of_stripDev {s n : String} (h : stripDev s = some n) : s = devPath n := by
  unfold stripDev at h
  split at h
  · next rest heq =>
    have hn := Option.some.inj h
    subst hn
    apply String.ext
    simpa [devPath] using heq
  · exact absurd h (by simp)

/-- The map `devPath` is injective. -/
theorem devPath_inj {a b : String} (h : devPath a = devPath b) : a = b := by
  apply String.ext
  simpa [devPath] using congrArg String.data h

/-- Reading the updated key. -/
theorem mupd_self (m : DevMap) (k : String) (v : BlockDevice) : mupd m k v k = some v := by
  simp [mupd]

/-- Reading another key. -/
theorem mupd_ne (m : DevMap) (k : String) (v : BlockDevice) {s : String} (h : s ≠ k) :
    mupd m k v s = m s := by
  simp [mupd, h]

/-- Reading a slot after writing a slot. -/
theorem getField_setField (k k' : Slot) (bd : BlockDevice) (s : String) :
    getField k' (setField k bd s) = if k' = k then some s else getField k' bd := by
  cases k <;> cases k' <;> simp [getField, setField]

/-- Writing the same slot twice keeps the last value. -/
theorem setField_setField (k : Slot) (bd : BlockDevice) (s1 s2 : String) :
    setField k (setField k bd s1) s2 = setField k bd s2 := by
  cases k <;> rfl

/-- Writing a slot does not change the name. -/
theorem name_setField (k : Slot) (bd : BlockDevice) (s : String) :
    (setField k bd s).name = bd.name := by
  cases k <;> rfl

/-- Writing a slot does not change the canonical path. -/
theorem fullname_setField (k : Slot) (bd : BlockDevice) (s : String) :
    (setField k bd s).fullname = bd.fullname := by
  cases k <;> rfl

/-- Writing a slot does not change the diskseq attribute. -/
theorem diskseq_setField (k : Slot) (bd : BlockDevice) (s : String) :
    (setField k bd s).diskseq = bd.diskseq := by
  cases k <;> rfl

/-- Two records agreeing on identity, diskseq and every slot are equal. -/
theorem bd_ext {r1 r2 : BlockDevice} (hn : r1.name = r2.name)
    (hf : r1.fullname = r2.fullname) (hd : r1.diskseq = r2.diskseq)
    (hk : ∀ k, getField k r1 = getField k r2) : r1 = r2 := by
  cases r1
  cases r2
  simp only [BlockDevice.mk.injEq]
  exact ⟨hn, hf, hd, hk .path, hk .uuid, hk .partuuid, hk .label, hk .partlabel, hk .id⟩

/-- Slot projection of `mkRec`. -/
theorem getField_mkRec (k : Slot) (n : String) (dsq : Option String)
    (f : Slot → Option String) : getField k (mkRec n dsq f) = f k := by
  cases k <;> rfl

/-- A good directory's scan succeeds with its entries. -/
theorem lsSymlinks_good {d : DirState} (h : dirGood d = true) :
    lsSymlinks d = .ok (entriesOf d) := by
  cases d <;> simp_all [dirGood, lsSymlinks, entriesOf]

/-- A good directory's entries are all good. -/
theorem goodList_entriesOf {d : DirState} (h : dirGood d = true) :
    goodList (entriesOf d) = true := by
  cases d <;> simp_all [dirGood, entriesOf, goodList]

/-- On good entries the `by-diskseq` loop is the pure fold. -/
theorem dsPass_good :
    ∀ (l : List DirEntry), goodList l = true →
      ∀ m, dsPass l m = .ok (l.foldl dsStep m) := by
  intro l
  induction l with
  | nil => intro _ m; rfl
  | cons e es ih =>
    intro h m
    rw [goodList, List.all_cons, Bool.and_eq_true] at h
    obtain ⟨he, hes⟩ := h
    cases e with
    | broken p => simp [goodEntry] at he
    | entryOk d s =>
      rw [goodEntry, Option.isSome_iff_exists] at he
      obtain ⟨n, hn⟩ := he
      simp only [dsPass, dsEntry, hn, List.foldl_cons, dsStep]
      exact ih hes _

/-- On good entries an `insert!` pass is the pure fold. -/
theorem pass_good (k : Slot) :
    ∀ (l : List DirEntry), goodList l = true →
      ∀ m, slotPass k l m = .ok (l.foldl (passStep k) m) := by
  intro l
  induction l with
  | nil => intro _ m; rfl
  | cons e es ih =>
    intro h m
    rw [goodList, List.all_cons, Bool.and_eq_true] at h
    obtain ⟨he, hes⟩ := h
    cases e with
    | broken p => simp [goodEntry] at he
    | entryOk d s =>
      rw [goodEntry, Option.isSome_iff_exists] at he
      obtain ⟨n, hn⟩ := he
      cases hmn : m n with
      | some bd =>
        simp only [slotPass, passEntry, hn, hmn, List.foldl_cons, passStep]
        exact ih hes _
      | none =>
        simp only [slotPass, passEntry, hn, hmn, List.foldl_cons, passStep]
        exact ih hes _

/-- A `by-diskseq` loop that returns a map only saw good entries. -/
theorem goodList_of_dsPass_ok :
    ∀ (l : List DirEntry) (m m' : DevMap), dsPass l m = .ok m' → goodList l = true := by
  intro l
  induction l with
  | nil => intro _ _ _; rfl
  | cons e es ih =>
    intro m m' h
    cases e with
    | broken p => simp [dsPass, dsEntry] at h
    | entryOk d s =>
      rw [goodList, List.all_cons, Bool.and_eq_true]
      cases hn : stripDev d with
      | none => simp [dsPass, dsEntry, hn] at h
      | some n =>
        simp only [dsPass, dsEntry, hn] at h
        exact ⟨by simp [goodEntry, hn], ih _ _ h⟩

/-- An `insert!` pass that returns a map only saw good entries. -/
theorem goodList_of_pass_ok (k : Slot) :
    ∀ (l : List DirEntry) (m m' : DevMap), slotPass k l m = .ok m' → goodList l = true := by
  intro l
  induction l with
  | nil => intro _ _ _; rfl
  | cons e es ih =>
    intro m m' h
    cases e with
    | broken p => simp [slotPass, passEntry] at h
    | entryOk d s =>
      rw [goodList, List.all_cons, Bool.and_eq_true]
      cases hn : stripDev d with
      | none => simp [slotPass, passEntry, hn] at h
      | some n =>
        simp only [slotPass, passEntry, hn] at h
        refine ⟨by simp [goodEntry, hn], ?_⟩
        cases hmn : m n with
        | some bd => rw [hmn] at h; exact ih _ _ h
        | none => rw [hmn] at h; exact ih _ _ h

/-- Pointwise description of the `by-diskseq` fold: the last matching entry
wins, untouched names keep their old record. -/
theorem dsFold_apply :
    ∀ (l : List DirEntry) (m : DevMap) (n : String),
      (l.foldl dsStep m) n =
        match lastSrc l (devPath n) with
        | some s => some { freshBD n (devPath n) with diskseq := some s }
        | none => m n := by
  intro l
  induction l with
  | nil => intro m n; rfl
  | cons e es ih =>
    intro m n
    rw [List.foldl_cons, ih, lastSrc]
    cases hls : lastSrc es (devPath n) with
    | some s => rfl
    | none =>
      cases e with
      | broken p => rfl
      | entryOk d s =>
        cases hd : stripDev d with
        | none =>
          have hne : d ≠ devPath n := by
            intro hdd
            rw [hdd, stripDev_devPath] at hd
            cases hd
          simp [dsStep, hd, entryMatch, hne]
        | some n' =>
          have hd' := devPath_of_stripDev hd
          by_cases hnn : n = n'
          · subst hnn
            simp [dsStep, hd', stripDev_devPath, entryMatch, mupd_self]
          · have hne : d ≠ devPath n := by
              intro hdd
              exact hnn (devPath_inj (hd'.symm.trans hdd)).symm
            simp [dsStep, hd, entryMatch, hne, mupd_ne _ _ _ hnn]

/-- Pointwise description of an `insert!` fold: the last matching entry wins
for the slot being written, the base record is the old one (or fresh),
untouched names keep their old record. -/
theorem passFold_apply (k : Slot) :
    ∀ (l : List DirEntry) (m : DevMap) (n : String),
      (l.foldl (passStep k) m) n =
        match lastSrc l (devPath n) with
        | some s => some (setField k ((m n).getD (freshBD n (devPath n))) s)
        | none => m n := by
  intro l
  induction l with
  | nil => intro m n; rfl
  | cons e es ih =>
    intro m n
    rw [List.foldl_cons, ih, lastSrc]
    cases hls : lastSrc es (devPath n) with
    | some s =>
      cases e with
      | broken p => rfl
      | entryOk d s1 =>
        cases hd : stripDev d with
        | none => simp [passStep, hd]
        | some n' =>
          by_cases hnn : n = n'
          · subst hnn
            have hd' := devPath_of_stripDev hd
            simp only [passStep, hd, mupd_self]
            cases hmn : m n with
            | some bd => simp [hmn, mupd_self, setField_setField]
            | none => simp [hmn, mupd_self, setField_setField, hd']
          · simp [passStep, hd, mupd_ne _ _ _ hnn]
    | none =>
      cases e with
      | broken p => rfl
      | entryOk d s1 =>
        cases hd : stripDev d with
        | none =>
          have hne : d ≠ devPath n := by
            intro hdd
            rw [hdd, stripDev_devPath] at hd
            cases hd
          simp [passStep, hd, entryMatch, hne]
        | some n' =>
          have hd' := devPath_of_stripDev hd
          by_cases hnn : n = n'
          · subst hnn
            simp only [passStep, hd, entryMatch, hd', stripDev_devPath, mupd_self]
            cases hmn : m n with
            | some bd => simp [hmn, mupd_self]
            | none => simp [hmn, mupd_self]
          · have hne : d ≠ devPath n := by
              intro hdd
              exact hnn (devPath_inj (hd'.symm.trans hdd)).symm
            simp [passStep, hd, entryMatch, hne, mupd_ne _ _ _ hnn]

/-- After the `by-diskseq` fold from the empty map, the map is the stage map
of no slot passes. -/
theorem dsFold_base (v : FsView) (n : String) :
    ((entriesOf v.ds).foldl dsStep (fun _ => none)) n = stageMap v [] n := by
  rw [dsFold_apply]
  cases hls : lastSrc (entriesOf v.ds) (devPath n) with
  | some s => simp [stageMap, stagePresent, stageField, hls, mkRec, freshBD]
  | none => simp [stageMap, stagePresent, hls]

/-- Lemma `passFold_apply` in `Option.elim` form, convenient for rewriting. -/
theorem passFold_elim (k : Slot) (l : List DirEntry) (m : DevMap) (n : String) :
    (l.foldl (passStep k) m) n =
      (lastSrc l (devPath n)).elim (m n)
        (fun s => some (setField k ((m n).getD (freshBD n (devPath n))) s)) := by
  rw [passFold_apply]
  cases lastSrc l (devPath n) <;> simp

/-- Running one more slot pass turns the stage map of `ks` into the stage map
of `ks ++ [k]`. -/
theorem stageStep (v : FsView) (ks : List Slot) (k : Slot) (n : String) :
    ((entriesOf (v.dirs k)).foldl (passStep k) (stageMap v ks)) n =
      stageMap v (ks ++ [k]) n := by
  rw [passFold_elim]
  cases hE : lastSrc (entriesOf (v.dirs k)) (devPath n) with
  | none =>
    rw [Option.elim_none]
    have hp : stagePresent v (ks ++ [k]) n = stagePresent v ks n := by
      unfold stagePresent
      simp [List.any_append, hE]
    have hf : (fun k' => stageField v (ks ++ [k]) k' n) = fun k' => stageField v ks k' n := by
      funext k'
      unfold stageField
      by_cases hkk : k' = k
      · subst hkk
        simp [hE]
      · simp [hkk]
    unfold stageMap
    rw [hp, hf]
  | some s =>
    rw [Option.elim_some]
    have hp2 : stagePresent v (ks ++ [k]) n = true := by
      unfold stagePresent
      simp [List.any_append, hE]
    unfold stageMap
    rw [hp2, if_pos rfl]
    cases hpres : stagePresent v ks n with
    | true =>
      rw [if_pos rfl, Option.getD_some]
      congr 1
      apply bd_ext
      · rw [name_setField]; rfl
      · rw [fullname_setField]; rfl
      · rw [diskseq_setField]; rfl
      · intro k'
        rw [getField_setField, getField_mkRec, getField_mkRec]
        unfold stageField
        by_cases hkk : k' = k
        · subst hkk
          simp [hE]
        · simp [hkk]
    | false =>
      rw [if_neg (by simp), Option.getD_none]
      have hpres' := hpres
      unfold stagePresent at hpres'
      rw [Bool.or_eq_false_iff] at hpres'
      obtain ⟨hds, hany⟩ := hpres'
      rw [List.any_eq_false] at hany
      congr 1
      apply bd_ext
      · rw [name_setField]; rfl
      · rw [fullname_setField]; rfl
      · rw [diskseq_setField]
        simp only [mkRec, freshBD]
        exact (Option.not_isSome_iff_eq_none.mp (by simp [hds])).symm
      · intro k'
        rw [getField_setField, getField_mkRec]
        have hfresh : ∀ k'', getField k'' (freshBD n (devPath n)) = none := by
          intro k''
          cases k'' <;> rfl
        unfold stageField
        by_cases hkk : k' = k
        · subst hkk
          simp [hE]
        · rw [if_neg hkk, hfresh k']
          by_cases hmem : k' ∈ ks ++ [k]
          · rw [if_pos hmem]
            have hk'ks : k' ∈ ks := by
              rcases List.mem_append.mp hmem with h | h
              · exact h
              · exact absurd (List.mem_singleton.mp h) hkk
            have hnone := hany _ hk'ks
            exact (Option.not_isSome_iff_eq_none.mp (by simp [hnone])).symm
          · rw [if_neg hmem]

/-- Running the passes `ks` from the stage map of `done` yields the stage map
of `done ++ ks`, provided all six directories are good. -/
theorem runPasses_stage (v : FsView) (hk : ∀ k, dirGood (v.dirs k) = true) :
    ∀ (ks done : List Slot) (m : DevMap), (∀ n, m n = stageMap v done n) →
      runPasses v ks m = .ok (stageMap v (done ++ ks)) := by
  intro ks
  induction ks with
  | nil =>
    intro done m hm
    simp only [runPasses, List.append_nil]
    congr 1
    funext n
    exact hm n
  | cons k ks ih =>
    intro done m hm
    have hls := lsSymlinks_good (hk k)
    have hpass := pass_good k _ (goodList_entriesOf (hk k)) m
    simp only [runPasses, hls, hpass]
    have hstep : ∀ n, ((entriesOf (v.dirs k)).foldl (passStep k) m) n =
        stageMap v (done ++ [k]) n := by
      intro n
      rw [passFold_elim, hm n, ← passFold_elim, stageStep]
    have hrec := ih (done ++ [k]) _ hstep
    rw [hrec]
    simp [List.append_assoc]

/-- On a good view, `list` with pass order `o` returns exactly the stage map
of `o`. -/
theorem listModel_stage (v : FsView) (hds : dirGood v.ds = true)
    (hk : ∀ k, dirGood (v.dirs k) = true) (o : List Slot) :
    listModel v o = .ok (stageMap v o) := by
  have hls := lsSymlinks_good hds
  have hdp := dsPass_good _ (goodList_entriesOf hds) (fun _ => none)
  simp only [listModel, hls, hdp]
  exact runPasses_stage v hk o [] _ (dsFold_base v)

/-- A successful run of the slot passes shows every scanned directory good. -/
theorem dirGood_of_runPasses_ok (v : FsView) :
    ∀ (ks : List Slot) (m m' : DevMap), runPasses v ks m = .ok m' →
      ∀ k ∈ ks, dirGood (v.dirs k) = true := by
  intro ks
  induction ks with
  | nil =>
    intro m m' _ k hk
    cases hk
  | cons k0 ks ih =>
    intro m m' h k hk
    cases hd : v.dirs k0 with
    | absent =>
      simp only [runPasses, hd, lsSymlinks, slotPass] at h
      rcases List.mem_cons.mp hk with rfl | hk'
      · simp [dirGood, hd]
      · exact ih _ _ h _ hk'
    | unreadable p => simp [runPasses, hd, lsSymlinks] at h
    | present l =>
      simp only [runPasses, hd, lsSymlinks] at h
      cases hsp : slotPass k0 l m with
      | ok m2 =>
        rw [hsp] at h
        rcases List.mem_cons.mp hk with rfl | hk'
        · rw [hd]
          exact goodList_of_pass_ok _ l m m2 hsp
        · exact ih _ _ h _ hk'
      | err e =>
        rw [hsp] at h
        cases h
      | panicked =>
        rw [hsp] at h
        cases h

/-- A successful `list` shows the `by-diskseq` directory good. -/
theorem dirGood_ds_of_listModel_ok {v : FsView} {o : List Slot} {m : DevMap}
    (h : listModel v o = .ok m) : dirGood v.ds = true := by
  cases hd : v.ds with
  | absent => rfl
  | unreadable p => simp [listModel, hd, lsSymlinks] at h
  | present l =>
    simp only [listModel, hd, lsSymlinks] at h
    cases hdp : dsPass l (fun _ => none) with
    | ok m2 =>
      exact goodList_of_dsPass_ok l _ _ hdp
    | err e =>
      rw [hdp] at h
      cases h
    | panicked =>
      rw [hdp] at h
      cases h

/-- A successful `list` shows every directory of its pass order good. -/
theorem dirGood_dirs_of_listModel_ok {v : FsView} {o : List Slot} {m : DevMap}
    (h : listModel v o = .ok m) : ∀ k ∈ o, dirGood (v.dirs k) = true := by
  cases hd : v.ds with
  | unreadable p => simp [listModel, hd, lsSymlinks] at h
  | absent =>
    simp only [listModel, hd, lsSymlinks, dsPass] at h
    exact dirGood_of_runPasses_ok v o _ _ h
  | present l =>
    simp only [listModel, hd, lsSymlinks] at h
    cases hdp : dsPass l (fun _ => none) with
    | ok m2 =>
      rw [hdp] at h
      exact dirGood_of_runPasses_ok v o _ _ h
    | err e =>
      rw [hdp] at h
      cases h
    | panicked =>
      rw [hdp] at h
      cases h

/-- The stage map only depends on the *set* of passes run. -/
theorem stageMap_perm (v : FsView) {o o' : List Slot} (h : o.Perm o') :
    stageMap v o = stageMap v o' := by
  funext n
  have hany : ∀ f : Slot → Bool, o.any f = o'.any f := by
    intro f
    induction h with
    | nil => rfl
    | cons x h ih => simp [ih]
    | swap x y l => simp [List.any_cons, Bool.or_left_comm]
    | trans h1 h2 ih1 ih2 => exact ih1.trans ih2
  have hpres : stagePresent v o n = stagePresent v o' n := by
    unfold stagePresent
    rw [hany]
  have hf : (fun k => stageField v o k n) = fun k => stageField v o' k n := by
    funext k
    unfold stageField
    by_cases hk : k ∈ o
    · rw [if_pos hk, if_pos (h.mem_iff.mp hk)]
    · rw [if_neg hk, if_neg (fun hk' => hk (h.mem_iff.mpr hk'))]
  unfold stageMap
  rw [hpres, hf]

/-- Every slot occurs in the source pass order. -/
theorem mem_sixSlots (k : Slot) : k ∈ sixSlots := by
  cases k <;> simp [sixSlots]

/-- C1: for a fixed filesystem view, running the six non-identity attribute
passes of `BlockDevice::list` in any permutation of the source order yields
the same final name→record map, field for field. -/
theorem list_perm_invariant (v : FsView) (o : List Slot) (m : DevMap)
    (ho : o.Perm sixSlots) (h : listModel v sixSlots = .ok m) :
    listModel v o = .ok m := by
  have hds := dirGood_ds_of_listModel_ok h
  have hdirs : ∀ k, dirGood (v.dirs k) = true := fun k =>
    dirGood_dirs_of_listModel_ok h k (mem_sixSlots k)
  have h6 := listModel_stage v hds hdirs sixSlots
  rw [h6] at h
  have hm : stageMap v sixSlots = m := by
    injection h
  rw [listModel_stage v hds hdirs o, stageMap_perm v ho, hm]

/-- Witness for C1: a concrete view and the reversed pass order. -/
theorem list_perm_invariant_witness :
    ([Slot.id, .partlabel, .label, .partuuid, .uuid, .path] : List Slot).Perm sixSlots ∧
      listModel vC1w [Slot.id, .partlabel, .label, .partuuid, .uuid, .path] = .ok mC1w :=
  ⟨by decide, list_perm_invariant vC1w _ mC1w (by decide) rfl⟩

/-- C7: if every one of the seven `/dev/disk/by-*` directories is absent,
`BlockDevice::list` returns `Ok` of an empty collection, and in general the
symlink reader yields an empty sequence (not an error) for a missing
directory. -/
theorem missing_dirs_empty :
    lsSymlinks .absent = .ok [] ∧
      ∀ (v : FsView) (o : List Slot), v.ds = .absent → (∀ k, v.dirs k = .absent) →
        listModel v o = .ok (fun _ => none) := by
  refine ⟨rfl, ?_⟩
  intro v o hds hdirs
  have hrun : ∀ (ks : List Slot) (m : DevMap), runPasses v ks m = .ok m := by
    intro ks
    induction ks with
    | nil => intro m; rfl
    | cons k ks ih =>
      intro m
      simp [runPasses, hdirs k, lsSymlinks, slotPass, ih]
  simp [listModel, hds, lsSymlinks, dsPass, hrun]

/-- Witness for C7: the all-absent view. -/
theorem missing_dirs_empty_witness :
    listModel vAllAbsent sixSlots = .ok (fun _ => none) :=
  missing_dirs_empty.2 vAllAbsent sixSlots rfl (fun _ => rfl)

/-- A path that does not start with `/dev/` does not strip. -/
theorem stripDev_none_of_no_devPre {p : String} (h : ¬ devPre <+: p.data) :
    stripDev p = none := by
  cases hsd : stripDev p with
  | none => rfl
  | some n =>
    exfalso
    apply h
    rw [devPath_of_stripDev hsd]
    exact ⟨n.data, rfl⟩

/-- On good entries the `by-diskseq` loop splits over append. -/
theorem dsPass_append_good :
    ∀ (pre : List DirEntry), goodList pre = true →
      ∀ (rest : List DirEntry) (m : DevMap),
        dsPass (pre ++ rest) m = dsPass rest (pre.foldl dsStep m) := by
  intro pre
  induction pre with
  | nil => intro _ rest m; rfl
  | cons e es ih =>
    intro h rest m
    rw [goodList, List.all_cons, Bool.and_eq_true] at h
    obtain ⟨he, hes⟩ := h
    cases e with
    | broken p => simp [goodEntry] at he
    | entryOk d s =>
      rw [goodEntry, Option.isSome_iff_exists] at he
      obtain ⟨n, hn⟩ := he
      simp only [List.cons_append, dsPass, dsEntry, hn, List.foldl_cons, dsStep]
      exact ih hes rest _

/-- C10: `from_abs_path_unpopulated` panics (returns no record) on every
input that does not begin with `/dev/`, and `BlockDevice::list` panics when a
discovered symlink canonicalizes to a target outside `/dev/` — the prefix
strip is a panicking assertion, not a fallible operation. -/
theorem strip_dev_panics :
    (∀ p : String, ¬ devPre <+: p.data → fromAbsModel p = none) ∧
      ∀ (v : FsView) (o : List Slot) (pre : List DirEntry) (d s : String)
        (post : List DirEntry), v.ds = .present (pre ++ .entryOk d s :: post) →
          goodList pre = true → stripDev d = none → listModel v o = .panicked := by
  constructor
  · intro p h
    rw [fromAbsModel, stripDev_none_of_no_devPre h]
  · intro v o pre d s post hds hpre hd
    simp only [listModel, hds, lsSymlinks]
    rw [dsPass_append_good pre hpre]
    simp [dsPass, dsEntry, hd]

/-- Witness for C10: a relative path, and a view with a stray symlink target. -/
theorem strip_dev_panics_witness :
    fromAbsModel "tmp/x" = none ∧ listModel vC10w sixSlots = .panicked :=
  ⟨strip_dev_panics.1 "tmp/x" (by decide),
   strip_dev_panics.2 vC10w sixSlots [.entryOk "/dev/sda" "1"] "tmp/bad" "2" []
     rfl (by decide) (by decide)⟩

/-- Name projection of `mkRec`. -/
theorem mkRec_name (n : String) (dsq : Option String) (f : Slot → Option String) :
    (mkRec n dsq f).name = n := rfl

/-- Canonical-path projection of `mkRec`. -/
theorem mkRec_fullname (n : String) (dsq : Option String) (f : Slot → Option String) :
    (mkRec n dsq f).fullname = devPath n := rfl

/-- Diskseq projection of `mkRec`. -/
theorem mkRec_diskseq (n : String) (dsq : Option String) (f : Slot → Option String) :
    (mkRec n dsq f).diskseq = dsq := rfl

/-- Evaluation of `from_path` on a good view: each attribute is the link name
of the first matching entry of its directory. -/
theorem fromPath_char (v : FsView) (p cp n : String)
    (hc : v.canon p = some cp) (hs : stripDev cp = some n)
    (hds : dirGood v.ds = true) (hk : ∀ k, dirGood (v.dirs k) = true) :
    fromPathModel v p = .ok
      { name := n, fullname := cp,
        diskseq := findIn (entriesOf v.ds) cp,
        path := findIn (entriesOf (v.dirs .path)) cp,
        uuid := findIn (entriesOf (v.dirs .uuid)) cp,
        partuuid := findIn (entriesOf (v.dirs .partuuid)) cp,
        label := findIn (entriesOf (v.dirs .label)) cp,
        partlabel := findIn (entriesOf (v.dirs .partlabel)) cp,
        id := findIn (entriesOf (v.dirs .id)) cp } := by
  simp only [fromPathModel, hc, hs, findStep, lsSymlinks_good hds,
    lsSymlinks_good (hk .path), lsSymlinks_good (hk .uuid),
    lsSymlinks_good (hk .partuuid), lsSymlinks_good (hk .label),
    lsSymlinks_good (hk .partlabel), lsSymlinks_good (hk .id), LRes.bind]

/-- A target that no entry resolves to has no last source. -/
theorem lastSrc_eq_none_of_not_mem :
    ∀ (l : List DirEntry) (d : String), d ∉ destsOf l → lastSrc l d = none := by
  intro l
  induction l with
  | nil => intro d _; rfl
  | cons e es ih =>
    intro d h
    cases e with
    | broken p =>
      rw [lastSrc, ih d (by simpa [destsOf] using h)]
      rfl
    | entryOk d' s =>
      simp only [destsOf, List.filterMap_cons] at h
      rw [List.mem_cons] at h
      push_neg at h
      rw [lastSrc, ih d (by simpa [destsOf] using h.2)]
      simp [entryMatch, Ne.symm h.1]

/-- On a duplicate-free good directory, `from_path`'s first match is `list`'s
last match. -/
theorem findIn_eq_lastSrc :
    ∀ (l : List DirEntry), goodList l = true → (destsOf l).Nodup →
      ∀ d, findIn l d = lastSrc l d := by
  intro l
  induction l with
  | nil => intro _ _ d; rfl
  | cons e es ih =>
    intro hg hnd d
    rw [goodList, List.all_cons, Bool.and_eq_true] at hg
    obtain ⟨he, hes⟩ := hg
    cases e with
    | broken p => simp [goodEntry] at he
    | entryOk d' s =>
      have hnd' : d' ∉ destsOf es ∧ (destsOf es).Nodup := by
        simpa [destsOf, List.filterMap_cons] using hnd
      by_cases hdd : d' = d
      · subst hdd
        have hpos : findIn (DirEntry.entryOk d' s :: es) d' = some s := by
          unfold findIn
          rw [List.find?_cons_of_pos _ (by simp [matchDest])]
        rw [hpos, lastSrc, lastSrc_eq_none_of_not_mem es d' hnd'.1]
        simp [entryMatch]
      · have hneg : findIn (DirEntry.entryOk d' s :: es) d = findIn es d := by
          unfold findIn
          rw [List.find?_cons_of_neg _ (by simp [matchDest, hdd])]
        rw [hneg, ih hes hnd'.2, lastSrc]
        cases lastSrc es d <;> simp [entryMatch, hdd]

/-- Unpacking one entry of the final map of `list`. -/
theorem stageMap_inv {v : FsView} {ks : List Slot} {n : String} {r : BlockDevice}
    (h : stageMap v ks n = some r) :
    r = mkRec n (lastSrc (entriesOf v.ds) (devPath n)) (fun k => stageField v ks k n) := by
  unfold stageMap at h
  by_cases hp : stagePresent v ks n = true
  · rw [if_pos hp] at h
    exact (Option.some.inj h).symm
  · rw [if_neg hp] at h
    cases h

/-- C2 (amended): for any record `r` of one successful `list`, if no scanned
directory holds two symlinks resolving to the same target and `r.fullname`
canonicalizes to itself, then `from_path r.fullname` over the same view
returns `Ok` of a record equal to `r` in every field. -/
theorem list_fromPath_agree (v : FsView) (m : DevMap) (nm : String)
    (r : BlockDevice) (h : listModel v sixSlots = .ok m) (hm : m nm = some r)
    (hnd : nodupView v) (hc : v.canon r.fullname = some r.fullname) :
    fromPathModel v r.fullname = .ok r := by
  have hds := dirGood_ds_of_listModel_ok h
  have hdirs : ∀ k, dirGood (v.dirs k) = true := fun k =>
    dirGood_dirs_of_listModel_ok h k (mem_sixSlots k)
  have hstage := listModel_stage v hds hdirs sixSlots
  rw [hstage] at h
  have hmm : stageMap v sixSlots = m := by injection h
  rw [← hmm] at hm
  have hr := stageMap_inv hm
  subst hr
  rw [mkRec_fullname] at hc ⊢
  have hndk : ∀ k, (destsOf (entriesOf (v.dirs k))).Nodup := by
    intro k
    cases k
    exacts [hnd.2.1, hnd.2.2.1, hnd.2.2.2.1, hnd.2.2.2.2.1, hnd.2.2.2.2.2.1,
      hnd.2.2.2.2.2.2]
  have hchar := fromPath_char v (devPath nm) (devPath nm) nm hc
    (stripDev_devPath nm) hds hdirs
  rw [hchar]
  congr 1
  apply bd_ext
  · rfl
  · rfl
  · show findIn (entriesOf v.ds) (devPath nm) = lastSrc (entriesOf v.ds) (devPath nm)
    exact findIn_eq_lastSrc _ (goodList_entriesOf hds) hnd.1 _
  · intro k
    have hlhs : getField k
        { name := nm, fullname := devPath nm,
          diskseq := findIn (entriesOf v.ds) (devPath nm),
          path := findIn (entriesOf (v.dirs .path)) (devPath nm),
          uuid := findIn (entriesOf (v.dirs .uuid)) (devPath nm),
          partuuid := findIn (entriesOf (v.dirs .partuuid)) (devPath nm),
          label := findIn (entriesOf (v.dirs .label)) (devPath nm),
          partlabel := findIn (entriesOf (v.dirs .partlabel)) (devPath nm),
          id := findIn (entriesOf (v.dirs .id)) (devPath nm) } =
        findIn (entriesOf (v.dirs k)) (devPath nm) := by
      cases k <;> rfl
    rw [hlhs, getField_mkRec, findIn_eq_lastSrc _ (goodList_entriesOf (hdirs k)) (hndk k)]
    unfold stageField
    rw [if_pos (mem_sixSlots k)]

/-- Witness for C2: a duplicate-free view where `list` and `from_path` agree. -/
theorem list_fromPath_agree_witness :
    mC2w "sda" = some rC2w ∧ fromPathModel vC2w rC2w.fullname = .ok rC2w :=
  ⟨by decide,
   list_fromPath_agree vC2w mC2w "sda" rC2w rfl (by decide) (by decide) (by decide)⟩

/-- Counterexample to C2 as stated: with two `by-id` links to the same device
(a realistic layout), `list` keeps the last link name while `from_path` keeps
the first, so the records differ in the `id` field. -/
theorem list_fromPath_disagree :
    vC2x.canon "/dev/sda" = some "/dev/sda" ∧
      mapAt (listModel vC2x sixSlots) "sda" =
        some { name := "sda", fullname := "/dev/sda", diskseq := some "7",
               path := none, uuid := none, partuuid := none, label := none,
               partlabel := none, id := some "wwn-Y" } ∧
      fromPathModel vC2x "/dev/sda" =
        .ok { name := "sda", fullname := "/dev/sda", diskseq := some "7",
              path := none, uuid := none, partuuid := none, label := none,
              partlabel := none, id := some "ata-X" } ∧
      ({ name := "sda", fullname := "/dev/sda", diskseq := some "7",
         path := none, uuid := none, partuuid := none, label := none,
         partlabel := none, id := some "wwn-Y" } : BlockDevice) ≠
        { name := "sda", fullname := "/dev/sda", diskseq := some "7",
          path := none, uuid := none, partuuid := none, label := none,
          partlabel := none, id := some "ata-X" } :=
  ⟨rfl, by decide, by decide, by decide⟩

/-- Search in `from_path` never sees broken entries: its `find`
predicate rejects them. -/
theorem findIn_filter (l : List DirEntry) (cp : String) :
    findIn (l.filter entryResolves) cp = findIn l cp := by
  induction l with
  | nil => rfl
  | cons e es ih =>
    cases e with
    | broken q =>
      have hl : (DirEntry.broken q :: es).filter entryResolves =
          es.filter entryResolves := by
        simp [List.filter_cons, entryResolves]
      have hr : findIn (DirEntry.broken q :: es) cp = findIn es cp := by
        unfold findIn
        rw [List.find?_cons_of_neg _ (by simp [matchDest])]
      rw [hl, hr, ih]
    | entryOk d s =>
      have hl : (DirEntry.entryOk d s :: es).filter entryResolves =
          DirEntry.entryOk d s :: es.filter entryResolves := by
        simp [List.filter_cons, entryResolves]
      rw [hl]
      by_cases hdd : d = cp
      · have h1 : findIn (DirEntry.entryOk d s :: es.filter entryResolves) cp = some s := by
          unfold findIn
          rw [List.find?_cons_of_pos _ (by simp [matchDest, hdd])]
        have h2 : findIn (DirEntry.entryOk d s :: es) cp = some s := by
          unfold findIn
          rw [List.find?_cons_of_pos _ (by simp [matchDest, hdd])]
        rw [h1, h2]
      · have h1 : findIn (DirEntry.entryOk d s :: es.filter entryResolves) cp =
            findIn (es.filter entryResolves) cp := by
          unfold findIn
          rw [List.find?_cons_of_neg _ (by simp [matchDest, hdd])]
        have h2 : findIn (DirEntry.entryOk d s :: es) cp = findIn es cp := by
          unfold findIn
          rw [List.find?_cons_of_neg _ (by simp [matchDest, hdd])]
        rw [h1, h2, ih]

/-- Deleting broken entries does not change what `from_path` finds in one
directory. -/
theorem findStep_dropBroken (d : DirState) (cp : String) :
    findStep (dropBroken d) cp = findStep d cp := by
  cases d with
  | absent => rfl
  | unreadable p => rfl
  | present l => simp [dropBroken, findStep, lsSymlinks, findIn_filter]

/-- C3 (amended): `from_path` aborts with a broken-symlink error exactly when
canonicalizing its own input fails; broken symlink entries discovered inside
the seven scanned directories are skipped by the `find` predicate and the
scan continues, so deleting them changes nothing. -/
theorem fromPath_badSymlink_policy (v : FsView) (p : String) :
    (v.canon p = none → fromPathModel v p = .err (.badSymlink p)) ∧
      fromPathModel (removeBroken v) p = fromPathModel v p := by
  constructor
  · intro h
    simp [fromPathModel, h]
  · show fromPathModel (removeBroken v) p = fromPathModel v p
    unfold fromPathModel removeBroken
    cases hc : v.canon p with
    | none => rfl
    | some cp =>
      cases hs : stripDev cp with
      | none => simp only [hs]
      | some n => simp only [hs, findStep_dropBroken]

/-- Witness for C3: the input-canonicalization failure, and invariance under
deleting the broken entry of `vC3x`. -/
theorem fromPath_badSymlink_policy_witness :
    fromPathModel vAllAbsent "/dev/sda" = .err (.badSymlink "/dev/sda") ∧
      fromPathModel (removeBroken vC3x) "/dev/sda" = fromPathModel vC3x "/dev/sda" :=
  ⟨(fromPath_badSymlink_policy vAllAbsent "/dev/sda").1 rfl,
   (fromPath_badSymlink_policy vC3x "/dev/sda").2⟩

/-- Counterexample to C3 as stated: a broken symlink sits in the scanned
`by-path` directory, yet `from_path` completes with `Ok` instead of aborting
with a broken-symlink error. -/
theorem fromPath_broken_entry_no_abort :
    vC3x.dirs .path =
        .present [.broken "/dev/disk/by-path/bad", .entryOk "/dev/sda" "pci-1"] ∧
      fromPathModel vC3x "/dev/sda" =
        .ok { name := "sda", fullname := "/dev/sda", diskseq := some "3",
              path := some "pci-1", uuid := none, partuuid := none,
              label := none, partlabel := none, id := none } :=
  ⟨rfl, by decide⟩

/-- The `b"mmcblk"` pattern is six bytes long. -/
theorem mmcblkBytes_length : mmcblkBytes.length = 6 := by decide

/-- C4: `is_physical` returns `true` exactly for records whose `by-path` slot
is present or whose name begins with the bytes `mmcblk` (the eMMC carve-out;
such a name necessarily has at least 6 bytes, so the call returns). -/
theorem isPhysical_true_iff (r : BlockDevice) :
    isPhysical r = some true ↔
      (r.path.isSome = true ∨ mmcblkBytes <+: utf8Bytes r.name) := by
  unfold isPhysical
  by_cases hp : r.path.isSome = true
  · simp [hp]
  · rw [if_neg hp]
    simp only [hp, false_or]
    by_cases hl : 6 ≤ (utf8Bytes r.name).length
    · rw [if_pos hl]
      rw [List.prefix_iff_eq_take, mmcblkBytes_length]
      simp [eq_comm]
    · rw [if_neg hl]
      constructor
      · intro h
        cases h
      · intro h
        exfalso
        rcases h with h | h
        · cases h
        · have hle := h.length_le
          rw [mmcblkBytes_length] at hle
          exact hl hle

/-- C9: with no `by-path` attribute and a name of fewer than 6 bytes,
`is_physical` panics (returns no value): the byte-slice `split_at(6)` is out
of bounds.  It returns a value exactly when the path slot is present or the
name has at least 6 bytes. -/
theorem isPhysical_partiality :
    (∀ r : BlockDevice, r.path = none → (utf8Bytes r.name).length < 6 →
        isPhysical r = none) ∧
      ∀ r : BlockDevice, (isPhysical r).isSome = true ↔
        (r.path.isSome = true ∨ 6 ≤ (utf8Bytes r.name).length) := by
  constructor
  · intro r hp hl
    unfold isPhysical
    rw [if_neg (by simp [hp]), if_neg (by omega)]
  · intro r
    unfold isPhysical
    by_cases hp : r.path.isSome = true
    · simp [hp]
    · rw [if_neg hp]
      by_cases hl : 6 ≤ (utf8Bytes r.name).length
      · simp [hl]
      · simp [hl, hp]

/-- Witness for C9: the `Default` record (empty name, no path) panics. -/
theorem isPhysical_partiality_witness : isPhysical defaultBD = none :=
  isPhysical_partiality.1 defaultBD rfl (by decide)

/-- Counterexample to C8 as stated: on content `"12"` (no trailing newline)
`capacity` still drops the last byte — a digit — and parses `1`; trimming one
trailing newline and parsing the remainder would give `12`. -/
theorem capacity_last_byte_cex :
    capacityModel (some "12") = .ok (some 1) ∧
      capacitySpecTrimmed "12" = some 12 ∧
      LRes.ok (capacitySpecTrimmed "12") ≠ capacityModel (some "12") :=
  ⟨by decide, by decide, by decide⟩

/-- C8 (amended): `capacity` removes the last byte of the content — the
newline, on the newline-terminated sysfs format — and parses the remainder;
a parse failure yields the explicit unknown `Ok(None)`, not an error. -/
theorem capacity_amended :
    (∀ t : String, capacityModel (some (t ++ "\n")) = .ok (parseU64 t)) ∧
      ∀ t : String, parseU64 t = none → capacityModel (some (t ++ "\n")) = .ok none := by
  have key : ∀ t : String, capacityModel (some (t ++ "\n")) = .ok (parseU64 t) := by
    intro t
    have hdata : (t ++ "\n").data = t.data ++ ['\n'] := String.data_append t "\n"
    show (match (t ++ "\n").data with
      | [] => LRes.panicked
      | _ => LRes.ok (parseU64 (String.mk (t ++ "\n").data.dropLast))) =
        .ok (parseU64 t)
    rw [hdata]
    cases hd : t.data ++ ['\n'] with
    | nil => exact absurd hd (by simp)
    | cons c cs =>
      show LRes.ok (parseU64 (String.mk (c :: cs).dropLast)) = .ok (parseU64 t)
      have hdl : (c :: cs).dropLast = t.data := by
        rw [← hd]
        exact List.dropLast_concat
      rw [hdl]
  exact ⟨key, fun t ht => by rw [key t, ht]⟩

/-- Witness for C8: an unparsable newline-terminated content gives `Ok(None)`. -/
theorem capacity_amended_witness : capacityModel (some ("ab" ++ "\n")) = .ok none :=
  capacity_amended.2 "ab" (by decide)

/-- C6: a mount-table line yielding fewer than four fields after trimming and
splitting is dropped silently — it produces no record, raises no error, and
the surrounding lines are parsed as if it were not there. -/
theorem malformed_line_skip :
    (∀ l : String, (splitSp (trimZeros l.data)).length < 4 → parseMountLine l = none) ∧
      ∀ (pre post : List String) (bad : String), parseMountLine bad = none →
        mountLines (pre ++ bad :: post) = mountLines pre ++ mountLines post := by
  constructor
  · intro l h
    unfold parseMountLine
    rcases hsp : splitSp (trimZeros l.data) with _ | ⟨a, _ | ⟨b, _ | ⟨c, _ | ⟨d, rest⟩⟩⟩⟩
    · rfl
    · rfl
    · rfl
    · rfl
    · rw [hsp] at h
      simp at h
      omega
  · intro pre post bad h
    unfold mountLines
    rw [List.filterMap_append]
    congr 1
    simp [List.filterMap_cons, h]

/-- Witness for C6: the two-field line `"a b"` is dropped and its neighbours
survive. -/
theorem malformed_line_skip_witness :
    (splitSp (trimZeros ("a b").data)).length < 4 ∧
      mountLines ["x y z w 0 0", "a b", "q r s t 0 0"] =
        mountLines ["x y z w 0 0"] ++ mountLines ["q r s t 0 0"] :=
  ⟨by decide,
   malformed_line_skip.2 ["x y z w 0 0"] ["q r s t 0 0"] "a b"
     (malformed_line_skip.1 "a b" (by decide))⟩

/-- A space-free chunk is one whole field. -/
theorem splitSp_nospace :
    ∀ (a : List Char), ' ' ∉ a → splitSp a = [a] := by
  intro a
  induction a with
  | nil => intro _; rfl
  | cons c cs ih =>
    intro h
    have hc : ¬ c = ' ' := by
      intro hh
      exact h (hh ▸ List.mem_cons_self c cs)
    rw [splitSp, if_neg hc, ih (fun hm => h (List.mem_cons_of_mem c hm))]

/-- Splitting a space-free field off the front. -/
theorem splitSp_append :
    ∀ (a rest : List Char), ' ' ∉ a →
      splitSp (a ++ ' ' :: rest) = a :: splitSp rest := by
  intro a
  induction a with
  | nil =>
    intro rest _
    show splitSp (' ' :: rest) = [] :: splitSp rest
    rw [splitSp, if_pos rfl]
  | cons c cs ih =>
    intro rest h
    have hc : ¬ c = ' ' := by
      intro hh
      exact h (hh ▸ List.mem_cons_self c cs)
    show splitSp (c :: (cs ++ ' ' :: rest)) = (c :: cs) :: splitSp rest
    rw [splitSp, if_neg hc, ih rest (fun hm => h (List.mem_cons_of_mem c hm))]

/-- A reversed line that does not begin with the reversed `" 0 0"` pattern is
not trimmed. -/
theorem trimRev_eq_self {l : List Char}
    (h : ∀ rest, l ≠ '0' :: ' ' :: '0' :: ' ' :: rest) : trimRev l = l := by
  rw [trimRev.eq_def]
  split
  · next rest => exact absurd rfl (h rest)
  · rfl

/-- After one `" 0 0"` removal the reversed remainder `oo.rev ++ " " ++
ff.rev ++ " " ++ …` does not start with the pattern again, unless the last
two fields are both `"0"`. -/
theorem trimRev_tail_eq (ro rf rrest : List Char)
    (ho : ' ' ∉ ro) (hf : ' ' ∉ rf) (hne : ¬(ro = ['0'] ∧ rf = ['0'])) :
    trimRev (ro ++ ' ' :: (rf ++ ' ' :: rrest)) = ro ++ ' ' :: (rf ++ ' ' :: rrest) := by
  apply trimRev_eq_self
  intro rest hl
  rcases ro with _ | ⟨c, ro'⟩
  · simp only [List.nil_append] at hl
    obtain ⟨h1, _⟩ := List.cons.inj hl
    exact absurd h1 (by decide)
  · rcases ro' with _ | ⟨c2, ro''⟩
    · simp only [List.cons_append, List.nil_append] at hl
      obtain ⟨hc, hl2⟩ := List.cons.inj hl
      obtain ⟨_, hl3⟩ := List.cons.inj hl2
      rcases rf with _ | ⟨e, rf'⟩
      · simp only [List.nil_append] at hl3
        obtain ⟨h1, _⟩ := List.cons.inj hl3
        exact absurd h1 (by decide)
      · rcases rf' with _ | ⟨e2, rf''⟩
        · simp only [List.cons_append, List.nil_append] at hl3
          obtain ⟨he, _⟩ := List.cons.inj hl3
          exact hne ⟨by rw [hc], by rw [he]⟩
        · simp only [List.cons_append] at hl3
          obtain ⟨_, hl4⟩ := List.cons.inj hl3
          obtain ⟨he2, _⟩ := List.cons.inj hl4
          exact hf (by rw [← he2] at *; exact List.mem_cons_of_mem _ (List.mem_cons_self _ _))
    · simp only [List.cons_append] at hl
      obtain ⟨_, hl2⟩ := List.cons.inj hl
      obtain ⟨hc2, _⟩ := List.cons.inj hl2
      exact ho (by rw [← hc2] at *; exact List.mem_cons_of_mem _ (List.mem_cons_self _ _))

/-- Trimming the constructed four-field line with trailing `" 0 0"` removes
exactly that suffix. -/
theorem trimZeros_line (dd mm ff oo : List Char) (hf : ' ' ∉ ff) (ho : ' ' ∉ oo)
    (hne : ¬(ff = ['0'] ∧ oo = ['0'])) :
    trimZeros (dd ++ ' ' :: (mm ++ ' ' :: (ff ++ ' ' :: (oo ++ [' ', '0', ' ', '0'])))) =
      dd ++ ' ' :: (mm ++ ' ' :: (ff ++ ' ' :: oo)) := by
  unfold trimZeros
  have hrev : (dd ++ ' ' :: (mm ++ ' ' :: (ff ++ ' ' :: (oo ++ [' ', '0', ' ', '0'])))).reverse =
      '0' :: ' ' :: '0' :: ' ' ::
        (oo.reverse ++ ' ' :: (ff.reverse ++ ' ' :: (mm.reverse ++ ' ' :: dd.reverse))) := by
    simp [List.reverse_append, List.append_assoc]
  rw [hrev]
  have htr : trimRev ('0' :: ' ' :: '0' :: ' ' ::
      (oo.reverse ++ ' ' :: (ff.reverse ++ ' ' :: (mm.reverse ++ ' ' :: dd.reverse)))) =
      trimRev (oo.reverse ++ ' ' :: (ff.reverse ++ ' ' :: (mm.reverse ++ ' ' :: dd.reverse))) := by
    rw [trimRev]
  rw [htr, trimRev_tail_eq _ _ _ (by simpa using ho) (by simpa using hf) ?hne2]
  case hne2 =>
    intro hcc
    apply hne
    constructor
    · rw [← List.reverse_reverse ff, hcc.2]
      rfl
    · rw [← List.reverse_reverse oo, hcc.1]
      rfl
  simp [List.reverse_append, List.append_assoc]

/-- C5: `Mount::list` trims the trailing `" 0 0"` from a line and splits the
remainder on single spaces into device, mountpoint, fstype, mountopts; in
particular the line `"/dev/sda1 /mnt ext4 rw,relatime 0 0"` yields exactly
one record with those four fields. -/
theorem mount_line_roundtrip :
    (∀ dd mm ff oo : String,
        ' ' ∉ dd.data → ' ' ∉ mm.data → ' ' ∉ ff.data → ' ' ∉ oo.data →
        ¬(ff = "0" ∧ oo = "0") →
        parseMountLine (dd ++ " " ++ mm ++ " " ++ ff ++ " " ++ oo ++ " 0 0") =
          some { device := dd, mountpoint := mm, fstype := ff, mountopts := oo }) ∧
      mountLines ["/dev/sda1 /mnt ext4 rw,relatime 0 0"] =
        [{ device := "/dev/sda1", mountpoint := "/mnt", fstype := "ext4",
           mountopts := "rw,relatime" }] := by
  constructor
  · intro dd mm ff oo hd hm hf ho hne
    unfold parseMountLine
    have hdata : (dd ++ " " ++ mm ++ " " ++ ff ++ " " ++ oo ++ " 0 0").data =
        dd.data ++ ' ' :: (mm.data ++ ' ' :: (ff.data ++ ' ' :: (oo.data ++
          [' ', '0', ' ', '0']))) := by
      simp [String.data_append, List.append_assoc,
        show (" " : String).data = [' '] from rfl,
        show (" 0 0" : String).data = [' ', '0', ' ', '0'] from rfl]
    rw [hdata, trimZeros_line dd.data mm.data ff.data oo.data hf ho ?hne2]
    case hne2 =>
      intro hcc
      apply hne
      constructor
      · apply String.ext
        rw [hcc.1]
      · apply String.ext
        rw [hcc.2]
    rw [splitSp_append _ _ hd, splitSp_append _ _ hm, splitSp_append _ _ hf,
      splitSp_nospace _ ho]
  · decide

/-- Witness for C5: a concrete four-field line round-trips. -/
theorem mount_line_roundtrip_witness :
    parseMountLine ("/dev/sda1" ++ " " ++ "/mnt" ++ " " ++ "ext4" ++ " " ++ "rw" ++ " 0 0") =
      some { device := "/dev/sda1", mountpoint := "/mnt", fstype := "ext4",
             mountopts := "rw" } :=
  mount_line_roundtrip.1 "/dev/sda1" "/mnt" "ext4" "rw" (by decide) (by decide)
    (by decide) (by decide) (by decide)
